import Mathlib

set_option linter.unusedVariables false

/-!
Verification of the reshaping-node subsystem of the CNTK computation-network
library (ReshapingNodes.h): ReshapeNode, RowSliceNode, RowStackNode and
RowRepeatNode, shallowly embedded over a column-major dense-matrix model.

Matrices are modelled as a pair of dimensions over a flat column-major
storage function, so that the source's reshape-as-view and
read-as-one-long-vector behaviours are literal in the model.  Matrix and
MBLayout member functions whose implementations are outside this fragment
are modelled from the specification and say so in their doc comments.
Errors raised by the C++ code (InvalidArgument, LogicError, RuntimeError,
NOT_IMPLEMENTED, and hardware faults from integer division by zero) are
modelled with an explicit error type and Except.
-/

namespace CNTK

/-- Dense 2-D buffer: `rows × cols` over contiguous column-major storage,
as in the source's Matrix class.  `data` is the flat storage; indices at or
beyond `rows * cols` are irrelevant junk. -/
structure CMat where
  rows : Nat
  cols : Nat
  data : Nat → Int

/-- Element at row `i`, column `j` of the column-major storage. -/
def CMat.entry (m : CMat) (i j : Nat) : Int := m.data (i + m.rows * j)

/-- Matrix `Reshaped(r, c)`: a view with new dimensions over the very same
storage (no copy), as the spec's Tensor Buffer `reshape` capability. -/
def CMat.reshaped (m : CMat) (r c : Nat) : CMat := ⟨r, c, m.data⟩

/-- The buffer's elements read as one long vector (column-major order). -/
def CMat.asVector (m : CMat) : List Int := (List.range (m.rows * m.cols)).map m.data

/-- Minibatch layout: derived quantities, as used by the reshaping nodes. -/
structure MBLayout where
  numParallelSequences : Nat
  numTimeSteps : Nat
  deriving DecidableEq, Repr

instance : Inhabited MBLayout := ⟨⟨0, 0⟩⟩

/-- A shared-pointer-to-layout: the `id` models pointer identity, so that
owning a freshly allocated layout versus aliasing the input's layout is
observable in the embedding. -/
structure MBLayoutPtr where
  id : Nat
  layout : MBLayout
  deriving DecidableEq, Repr

/-- A reference to a value buffer: the `id` models the identity of the
underlying Matrix object, so aliasing (returning the input's buffer itself)
is distinguishable from copying. -/
structure BufRef where
  id : Nat
  mat : CMat

/-- Errors raised by the embedded code.  `divByZero` models the hardware
fault of C++ integer division (or modulus) by zero; `logicErrorInput i`
models a LogicError message naming input `i` as the offending input. -/
inductive Err where
  | invalidArgument
  | logicError
  | logicErrorInput (i : Nat)
  | runtimeError
  | notImplemented
  | divByZero
  deriving DecidableEq, Repr

/-- Entry of the matrix produced by a fallible operation, if it succeeded. -/
def exceptEntry (e : Except Err CMat) (i j : Nat) : Option Int :=
  match e with
  | .ok m => some (m.entry i j)
  | .error _ => none

/-- Modelled from the spec: the Tensor Buffer capability's
tensor-shuffle-scale-add primitive (the source's
Matrix TensorShuffleScaleAndAdd, implemented outside this fragment).
The input storage is viewed as a tensor of dimensions `(D, S, M, K, T)`
with the leftmost index fastest-varying, the output as `(D, K, M, S, T)`;
each output element receives `keepWeight * old + scaleFactor * input` with
the input taken at the permuted index. -/
def tensorShuffleScaleAndAdd (keepWeight : Int) (a : Nat → Int)
    (D S M K T : Nat) (scaleFactor : Int) (b : Nat → Int) : Nat → Int :=
  fun nb =>
    let d := nb % D
    let k := nb / D % K
    let m := nb / (D * K) % M
    let s := nb / (D * K * M) % S
    let t := nb / (D * K * M * S)
    keepWeight * b nb + scaleFactor * a (d + D * (s + S * (m + M * (k + K * t))))

/-- ReshapingNodeBase Stack, for the whole-minibatch frame range: stack `K`
consecutive frames of each sequence into a single frame that is `K` times
taller.  `from_` is the input node's value, `to` the output node's value
buffer, `S` and `T` the output layout's parallel-sequence and time-step
counts.  As in the source, the input is reshaped (a view) to the output's
dimensions and then both sides are viewed as `D × (S*M*K*T)` before the
tensor shuffle. -/
def Stack (from_ dst : CMat) (S T K : Nat) (addTo : Bool) : CMat :=
  let D := from_.rows
  let SMKT := from_.cols
  let fromSlice := (from_.reshaped dst.rows dst.cols).reshaped D SMKT
  let toSlice := dst.reshaped D SMKT
  { rows := dst.rows, cols := dst.cols,
    data := tensorShuffleScaleAndAdd (if addTo then 1 else 0) fromSlice.data
      D S 1 K T 1 toSlice.data }

/-- ReshapingNodeBase Unstack: the body is the NOT_IMPLEMENTED macro, which
raises before touching any buffer. -/
def Unstack (from_ dst : CMat) (K : Nat) (addTo : Bool) : Except Err CMat :=
  .error .notImplemented

/-- ReshapeNode weStack: do we stack (multiple frames into one)? -/
def weStack (numRows inputRows : Nat) : Bool := numRows > inputRows

/-- ReshapeNode factor: the factor by which we stack or unstack. -/
def factor (numRows inputRows : Nat) : Nat :=
  if numRows > inputRows then numRows / inputRows else inputRows / numRows

/-- ReshapeNode isNoop: no change in dimension. -/
def reshapeIsNoop (numRows inputRows : Nat) : Bool := numRows = inputRows

/-- ReshapeNode Validate, dimension part.  Computes
`newCols = cols * rows / m_numRows` unconditionally (a genuine division by
zero when `m_numRows = 0`, and, inside the final-pass multiple/divisor
check, a modulus by zero when `rows = 0 < m_numRows`).  On the final pass it
raises InvalidArgument when `m_numRows` is neither an integer multiple nor an
integer divisor of `rows`, and then - only without a minibatch layout -
raises LogicError under the source's literal condition
`(rows * cols != m_numRows) != newCols` (the comparison chain as C++ parses
it).  On success the node is resized to `(m_numRows, newCols)`. -/
def reshapeValidate (isFinalValidationPass : Bool) (numRows rows cols : Nat)
    (inputHasLayout : Bool) : Except Err (Nat × Nat) :=
  if numRows = 0 then .error .divByZero
  else
    let newCols := cols * rows / numRows
    if isFinalValidationPass then
      if numRows > rows ∧ rows = 0 then .error .divByZero
      else if (numRows > rows ∧ numRows % rows ≠ 0) ∨
              (numRows < rows ∧ rows % numRows ≠ 0) then
        .error .invalidArgument
      else if ¬ inputHasLayout ∧
              ((if rows * cols ≠ numRows then (1 : Nat) else 0) ≠ newCols) then
        .error .logicError
      else .ok (numRows, newCols)
    else .ok (numRows, newCols)

/-- ReshapeNode Validate, layout part: if the input carries a layout and the
node has none yet, the node allocates a fresh layout (make_shared, modelled
by the caller-supplied fresh pointer id); it never assigns the input's
pointer.  If the input carries no layout the node's layout is left alone
(the source asserts it is null). -/
def reshapeValidateLayout (freshId : Nat) (inputLayout : Option MBLayoutPtr)
    (nodeLayout : Option MBLayoutPtr) : Option MBLayoutPtr :=
  match inputLayout with
  | some _ =>
      match nodeLayout with
      | none => some ⟨freshId, default⟩
      | some p => some p
  | none => nodeLayout

/-- ReshapeNode OnEvaluateBeginIteration: if the node owns a layout,
re-initialize it in place (pointer id preserved) to
`(GetNumParallelSequences(), numTimeSteps_in * rows_in / m_numRows)`.
GetNumParallelSequences is part of the node base class outside this
fragment; modelled from the spec: the layout rule keeps
`numParallelSequences` unchanged from the input. -/
def reshapeOnEvaluateBeginIteration (numRows inputRows : Nat)
    (inputLayout : MBLayout) (nodeLayout : Option MBLayoutPtr) :
    Option MBLayoutPtr :=
  match nodeLayout with
  | none => none
  | some p =>
      some ⟨p.id, ⟨inputLayout.numParallelSequences,
                   inputLayout.numTimeSteps * inputRows / numRows⟩⟩

/-- ReshapeNode EvaluateThisNode, for the whole-minibatch frame range.
The noop fast path returns before touching anything.  Then
`newCols = cols * rows / m_numRows` is computed (division by zero when
`m_numRows = 0`) and VerifySize checks the node's own buffer dimensions.
Without a layout the values are copied over as one long vector (modelled by
carrying the input's storage under the new dimensions); with a layout the
node stacks (calling factor(), a division by zero when `rows = 0`) or hits
the unimplemented Unstack path. -/
def reshapeEvalThisNode (numRows : Nat) (input : CMat)
    (nodeLayout : Option MBLayout) (own : CMat) : Except Err CMat :=
  if numRows = input.rows then .ok own
  else if numRows = 0 then .error .divByZero
  else
    let rows := input.rows
    let cols := input.cols
    let newCols := cols * rows / numRows
    if own.rows = numRows ∧ own.cols = newCols then
      match nodeLayout with
      | none => .ok ⟨numRows, newCols, input.data⟩
      | some lay =>
          if rows < numRows then
            if rows = 0 then .error .divByZero
            else .ok (Stack input own lay.numParallelSequences lay.numTimeSteps
                        (numRows / rows) false)
          else Unstack input own (rows / numRows) false
    else .error .logicError

/-- ReshapeNode ComputeInputPartial (the gradient pass), embedded as
reshapeBackprop: an unconditional LogicError stub that raises before
touching any gradient buffer. -/
def reshapeBackprop (inputIndex : Nat) (inputGradient outputGradient : CMat) :
    Except Err CMat :=
  .error .logicError

/-- ReshapeNode FunctionValues (const overload): the node's own buffer,
except on the noop path, where it is the input node's buffer itself. -/
def reshapeFunctionValues (numRows inputRows : Nat) (own input : BufRef) :
    BufRef :=
  if ¬ (numRows = inputRows) then own else input

/-- Modelled from the spec: Matrix AssignRowSliceValuesOf (implemented
outside this fragment): the destination becomes rows
`[startIndex, startIndex + numRows)` of `src`, with `src`'s column count. -/
def assignRowSliceValuesOf (src : CMat) (startIndex numRows : Nat) : CMat :=
  { rows := numRows, cols := src.cols,
    data := fun n => src.entry (startIndex + n % numRows) (n / numRows) }

/-- Modelled from the spec: Matrix AssignToRowSliceValuesOf (implemented
outside this fragment): rows `[startIndex, startIndex + numRows)` of the
destination are overwritten with `src`; all other rows are unchanged. -/
def assignToRowSliceValuesOf (dest src : CMat) (startIndex numRows : Nat) :
    CMat :=
  { rows := dest.rows, cols := dest.cols,
    data := fun n =>
      let i := n % dest.rows
      if startIndex ≤ i ∧ i < startIndex + numRows then
        src.entry (i - startIndex) (n / dest.rows)
      else dest.data n }

/-- Modelled from the spec: Matrix AddToRowSliceValuesOf (implemented
outside this fragment): rows `[startIndex, startIndex + numRows)` of the
destination accumulate (add) `src`; all other rows are unchanged. -/
def addToRowSliceValuesOf (dest src : CMat) (startIndex numRows : Nat) :
    CMat :=
  { rows := dest.rows, cols := dest.cols,
    data := fun n =>
      let i := n % dest.rows
      if startIndex ≤ i ∧ i < startIndex + numRows then
        dest.data n + src.entry (i - startIndex) (n / dest.rows)
      else dest.data n }

/-- Modelled from the spec: Matrix AddWithRowSliceValuesOf (implemented
outside this fragment): the destination (of `numRows` rows) accumulates
(adds) rows `[startIndex, startIndex + numRows)` of `src`. -/
def addWithRowSliceValuesOf (dest src : CMat) (startIndex numRows : Nat) :
    CMat :=
  { rows := dest.rows, cols := dest.cols,
    data := fun n =>
      let i := n % dest.rows
      if i < numRows then
        dest.data n + src.entry (startIndex + i) (n / dest.rows)
      else dest.data n }

/-- Modelled from the spec: Matrix AssignRepeatOf (implemented outside this
fragment): tiles `numRowRepeats` whole-matrix copies of `src` stacked
top-to-bottom (and `numColRepeats` side by side): output row `i` equals
input row `i mod inputRows`. -/
def assignRepeatOf (src : CMat) (numRowRepeats numColRepeats : Nat) : CMat :=
  { rows := src.rows * numRowRepeats, cols := src.cols * numColRepeats,
    data := fun n =>
      let R := src.rows * numRowRepeats
      src.entry (n % R % src.rows) (n / R % src.cols) }

/-- Modelled from the spec: Matrix AddToRowRepeatValuesOf (implemented
outside this fragment): each destination entry `(i, j)` accumulates the sum
of the `numRepeats` stacked copies `src (i + destRows * r, j)`. -/
def addToRowRepeatValuesOf (dest src : CMat) (numRepeats : Nat) : CMat :=
  { rows := dest.rows, cols := dest.cols,
    data := fun n =>
      dest.data n +
        (Finset.range numRepeats).sum fun r =>
          src.entry (n % dest.rows + dest.rows * r) (n / dest.rows) }

/-- RowSliceNode Validate: on the final pass only, raises (RuntimeError)
when `startIndex + numRows` exceeds the input row count; resizes to
`(numRows, inputCols)`. -/
def rowSliceValidate (isFinalValidationPass : Bool)
    (startIndex numRows inputRows inputCols : Nat) : Except Err (Nat × Nat) :=
  if isFinalValidationPass ∧ inputRows < startIndex + numRows then
    .error .runtimeError
  else .ok (numRows, inputCols)

/-- RowSliceNode EvaluateThisNode: copy the row range out of the input. -/
def rowSliceEvalThisNode (startIndex numRows : Nat) (input : CMat) : CMat :=
  assignRowSliceValuesOf input startIndex numRows

/-- RowSliceNode ComputeInputPartial (the gradient pass), embedded as
rowSliceBackprop: add the output gradient into rows
`[startIndex, startIndex + numRows)` of the input gradient. -/
def rowSliceBackprop (startIndex numRows : Nat)
    (inputGradient outputGradient : CMat) : CMat :=
  addToRowSliceValuesOf inputGradient outputGradient startIndex numRows

/-- Running-sum offsets: `partialSumsFrom base [r0, r1, ...]` is
`[base, base + r0, base + r0 + r1, ...]`, the cumulative start-row table
the RowStack validation loop computes. -/
def partialSumsFrom : Nat → List Nat → List Nat
  | _, [] => []
  | base, r :: rs => base :: partialSumsFrom (base + r) rs

/-- RowStackNode Validate loop over the children, carrying the running row
total: `dims` lists each input's `(rows, cols)`; `idx` is the index of the
first input in `dims`.  On the final pass, an input whose column count
differs from input 0's raises a LogicError naming that input.  Returns the
start-row-index table and the row total. -/
def rowStackValidateAux (isFinalValidationPass : Bool) (numCols : Nat) :
    Nat → List (Nat × Nat) → Nat → Except Err (List Nat × Nat)
  | _, [], totalRows => .ok ([], totalRows)
  | idx, (r, c) :: rest, totalRows =>
      if isFinalValidationPass ∧ c ≠ numCols then .error (.logicErrorInput idx)
      else
        match rowStackValidateAux isFinalValidationPass numCols (idx + 1) rest
            (totalRows + r) with
        | .ok (offs, tot) => .ok (totalRows :: offs, tot)
        | .error e => .error e

/-- RowStackNode Validate: recomputes the start-row-index table (cumulative
sum of the inputs' row counts, in input order) on every pass and resizes to
`(totalRows, numCols)` with `numCols` taken from input 0.  The source
indexes input 0 unconditionally, so no children is modelled as an error. -/
def rowStackValidate (isFinalValidationPass : Bool) (dims : List (Nat × Nat)) :
    Except Err (List Nat × Nat × Nat) :=
  match dims with
  | [] => .error .logicError
  | (_, c0) :: _ =>
      match rowStackValidateAux isFinalValidationPass c0 0 dims 0 with
      | .ok (offs, tot) => .ok (offs, tot, c0)
      | .error e => .error e

/-- RowStackNode EvaluateThisNode loop: write each input into its row range
of the output, in input order. -/
def rowStackEvalFrom : List (CMat × Nat) → CMat → CMat
  | [], acc => acc
  | (inp, off) :: rest, acc =>
      rowStackEvalFrom rest (assignToRowSliceValuesOf acc inp off inp.rows)

/-- RowStackNode EvaluateThisNode: for each input index in order, assign the
input into rows `[startRowIndices_i, startRowIndices_i + rows_i)` of the
node's own buffer. -/
def rowStackEvalThisNode (inputs : List CMat) (startRowIndices : List Nat)
    (own : CMat) : CMat :=
  rowStackEvalFrom (inputs.zip startRowIndices) own

/-- RowStackNode ComputeInputPartial (the gradient pass) for one input,
embedded as rowStackBackprop: the input's gradient accumulates rows
`[startRowIndex, startRowIndex + inputRows)` of the output gradient.  The
call touches only this input's gradient buffer. -/
def rowStackBackprop (startRowIndex : Nat)
    (inputGradient outputGradient : CMat) : CMat :=
  addWithRowSliceValuesOf inputGradient outputGradient startRowIndex
    inputGradient.rows

/-- RowRepeatNode isNoop. -/
def rowRepeatIsNoop (numRepeat : Nat) : Bool := numRepeat = 1

/-- RowRepeatNode Validate: resizes to
`(inputRows * numRepeat, inputCols)`; performs no checks. -/
def rowRepeatValidate (numRepeat inputRows inputCols : Nat) : Nat × Nat :=
  (inputRows * numRepeat, inputCols)

/-- RowRepeatNode EvaluateThisNode: unless noop (`numRepeat = 1`, where the
own buffer is left untouched and FunctionValues redirects to the input),
assign the repeat of the input into the own buffer. -/
def rowRepeatEvalThisNode (numRepeat : Nat) (input own : CMat) : CMat :=
  if ¬ (numRepeat = 1) then assignRepeatOf input numRepeat 1 else own

/-- RowRepeatNode ComputeInputPartial (the gradient pass), embedded as
rowRepeatBackprop: the input gradient accumulates all `numRepeat` row-block
copies of the output gradient. -/
def rowRepeatBackprop (numRepeat : Nat)
    (inputGradient outputGradient : CMat) : CMat :=
  addToRowRepeatValuesOf inputGradient outputGradient numRepeat

/-- RowRepeatNode FunctionValues (const overload): the node's own buffer,
except on the noop path, where it is the input node's buffer itself. -/
def rowRepeatFunctionValuesConst (numRepeat : Nat) (own input : BufRef) :
    BufRef :=
  if ¬ (numRepeat = 1) then own else input

/-- RowRepeatNode FunctionValues (non-const overload): same body as the
const overload. -/
def rowRepeatFunctionValuesMut (numRepeat : Nat) (own input : BufRef) :
    BufRef :=
  if ¬ (numRepeat = 1) then own else input

/-! Helper lemmas about the column-major index arithmetic and the modelled
matrix primitives.  These are shared infrastructure, not claim theorems. -/

theorem add_mul_mod_lt (x y D : Nat) (hx : x < D) : (x + D * y) % D = x := by
  rw [Nat.add_mul_mod_self_left, Nat.mod_eq_of_lt hx]

theorem add_mul_div_lt (x y D : Nat) (hx : x < D) : (x + D * y) / D = y := by
  have hD : 0 < D := Nat.lt_of_le_of_lt (Nat.zero_le x) hx
  rw [Nat.add_mul_div_left _ _ hD, Nat.div_eq_of_lt hx]
  omega

theorem assignToRowSlice_rows (dest src : CMat) (st num : Nat) :
    (assignToRowSliceValuesOf dest src st num).rows = dest.rows := rfl

theorem assignToRowSlice_entry_in (dest src : CMat) (st num i j : Nat)
    (hi : i < dest.rows) (h1 : st ≤ i) (h2 : i < st + num) :
    (assignToRowSliceValuesOf dest src st num).entry i j =
      src.entry (i - st) j := by
  unfold assignToRowSliceValuesOf CMat.entry
  simp only
  rw [add_mul_mod_lt _ _ _ hi, add_mul_div_lt _ _ _ hi]
  simp [h1, h2]

theorem assignToRowSlice_entry_out (dest src : CMat) (st num i j : Nat)
    (hi : i < dest.rows) (h : i < st ∨ st + num ≤ i) :
    (assignToRowSliceValuesOf dest src st num).entry i j = dest.entry i j := by
  unfold assignToRowSliceValuesOf CMat.entry
  simp only
  rw [add_mul_mod_lt _ _ _ hi]
  rcases h with h | h
  · rw [if_neg]; omega
  · rw [if_neg]; omega

theorem addToRowSlice_entry_in (dest src : CMat) (st num i j : Nat)
    (hi : i < dest.rows) (h1 : st ≤ i) (h2 : i < st + num) :
    (addToRowSliceValuesOf dest src st num).entry i j =
      dest.entry i j + src.entry (i - st) j := by
  unfold addToRowSliceValuesOf CMat.entry
  simp only
  rw [add_mul_mod_lt _ _ _ hi, add_mul_div_lt _ _ _ hi]
  simp [h1, h2]

theorem addToRowSlice_entry_out (dest src : CMat) (st num i j : Nat)
    (hi : i < dest.rows) (h : i < st ∨ st + num ≤ i) :
    (addToRowSliceValuesOf dest src st num).entry i j = dest.entry i j := by
  unfold addToRowSliceValuesOf CMat.entry
  simp only
  rw [add_mul_mod_lt _ _ _ hi]
  rcases h with h | h
  · rw [if_neg]; omega
  · rw [if_neg]; omega

theorem addWithRowSlice_entry (dest src : CMat) (st num i j : Nat)
    (hi : i < dest.rows) (hnum : i < num) :
    (addWithRowSliceValuesOf dest src st num).entry i j =
      dest.entry i j + src.entry (st + i) j := by
  unfold addWithRowSliceValuesOf CMat.entry
  simp only
  rw [add_mul_mod_lt _ _ _ hi, add_mul_div_lt _ _ _ hi]
  simp [hnum]

theorem addToRowRepeat_entry (dest src : CMat) (numRepeats i j : Nat)
    (hi : i < dest.rows) :
    (addToRowRepeatValuesOf dest src numRepeats).entry i j =
      dest.entry i j +
        (Finset.range numRepeats).sum
          (fun r => src.entry (i + dest.rows * r) j) := by
  unfold addToRowRepeatValuesOf CMat.entry
  simp only
  rw [add_mul_mod_lt _ _ _ hi, add_mul_div_lt _ _ _ hi]

theorem assignRepeatOf_entry (src : CMat) (numRowRepeats i j : Nat)
    (hi : i < src.rows * numRowRepeats) (hj : j < src.cols) :
    (assignRepeatOf src numRowRepeats 1).entry i j =
      src.entry (i % src.rows) j := by
  unfold assignRepeatOf CMat.entry
  simp only
  rw [add_mul_mod_lt _ _ _ hi, add_mul_div_lt _ _ _ hi, Nat.mod_eq_of_lt hj]

/-- C9: the two unimplemented paths fail immediately and loudly on first
invocation for every input.  The Unstack direction (forward evaluation with
a layout and `newRows < rows`, `newRows > 0`) raises NotImplemented, and
the Reshape gradient pass raises LogicError, in both cases without writing
any output or gradient value (the error is returned before any buffer is
produced). -/
theorem c9_unimplemented_paths :
    (∀ (numRows : Nat) (input : CMat) (lay : MBLayout) (own : CMat),
        0 < numRows → numRows < input.rows →
        own.rows = numRows → own.cols = input.cols * input.rows / numRows →
        reshapeEvalThisNode numRows input (some lay) own =
          .error .notImplemented) ∧
    (∀ (inputIndex : Nat) (inputGradient outputGradient : CMat),
        reshapeBackprop inputIndex inputGradient outputGradient =
          .error .logicError) := by
  constructor
  · intro numRows input lay own h0 hlt hr hc
    have h1 : ¬ (numRows = input.rows) := Nat.ne_of_lt hlt
    have h2 : ¬ (numRows = 0) := by omega
    have h3 : ¬ (input.rows < numRows) := by omega
    unfold reshapeEvalThisNode Unstack
    simp [h1, h2, h3, hr, hc]
  · intro inputIndex inputGradient outputGradient
    rfl

theorem c9_witness :
    reshapeEvalThisNode 1 ⟨2, 3, fun n => (n : Int)⟩ (some ⟨1, 3⟩)
        ⟨1, 6, fun _ => 0⟩ = .error .notImplemented ∧
    reshapeBackprop 0 ⟨2, 3, fun _ => 0⟩ ⟨1, 6, fun _ => 0⟩ =
      .error .logicError :=
  ⟨c9_unimplemented_paths.1 1 ⟨2, 3, fun n => (n : Int)⟩ ⟨1, 3⟩
      ⟨1, 6, fun _ => 0⟩ (by decide) (by decide) rfl rfl,
   c9_unimplemented_paths.2 0 ⟨2, 3, fun _ => 0⟩ ⟨1, 6, fun _ => 0⟩⟩

/-- C10: ReshapeNode Validate requires `m_numRows > 0` as an unstated
precondition: on every pass, final or not, a node whose `numRows` is 0 (as
left by the deserialization constructor before LoadFromFile runs) makes the
unguarded `newCols = cols * rows / m_numRows` divide by zero instead of
reporting a configuration error (InvalidArgument). -/
theorem c10_validate_div_by_zero :
    ∀ (isFinalValidationPass : Bool) (rows cols : Nat) (inputHasLayout : Bool),
      reshapeValidate isFinalValidationPass 0 rows cols inputHasLayout =
          .error .divByZero ∧
      reshapeValidate isFinalValidationPass 0 rows cols inputHasLayout ≠
          .error .invalidArgument := by
  intro isFinalValidationPass rows cols inputHasLayout
  unfold reshapeValidate
  simp

/-- C8: when Reshape has `newRows == rows` and when RowRepeat has
`repeatCount == 1`, the node is a no-op: forward evaluation performs no
element-wise copy (the node's own buffer is returned untouched), and the
value accessors return the input's buffer itself (the same buffer
reference, for every content of the node's own buffer), for Reshape's
const accessor and for both of RowRepeat's accessors. -/
theorem c8_noop_alias :
    (∀ (numRows inputRows : Nat) (own input : BufRef), numRows = inputRows →
        reshapeFunctionValues numRows inputRows own input = input) ∧
    (∀ (numRows : Nat) (input : CMat) (lay : Option MBLayout) (own : CMat),
        numRows = input.rows →
        reshapeEvalThisNode numRows input lay own = .ok own) ∧
    (∀ (numRepeat : Nat) (own input : BufRef), numRepeat = 1 →
        rowRepeatFunctionValuesConst numRepeat own input = input ∧
        rowRepeatFunctionValuesMut numRepeat own input = input) ∧
    (∀ (input own : CMat), rowRepeatEvalThisNode 1 input own = own) := by
  refine ⟨?_, ?_, ?_, ?_⟩
  · intro numRows inputRows own input h
    unfold reshapeFunctionValues
    simp [h]
  · intro numRows input lay own h
    unfold reshapeEvalThisNode
    simp [h]
  · intro numRepeat own input h
    unfold rowRepeatFunctionValuesConst rowRepeatFunctionValuesMut
    simp [h]
  · intro input own
    unfold rowRepeatEvalThisNode
    simp

theorem c8_witness :
    reshapeFunctionValues 3 3 ⟨0, ⟨3, 1, fun _ => 5⟩⟩ ⟨1, ⟨3, 1, fun _ => 7⟩⟩ =
        ⟨1, ⟨3, 1, fun _ => 7⟩⟩ ∧
    reshapeEvalThisNode 3 ⟨3, 2, fun _ => 7⟩ none ⟨9, 9, fun _ => 5⟩ =
        .ok ⟨9, 9, fun _ => 5⟩ ∧
    rowRepeatFunctionValuesConst 1 ⟨0, ⟨2, 1, fun _ => 5⟩⟩ ⟨1, ⟨2, 1, fun _ => 7⟩⟩ =
        ⟨1, ⟨2, 1, fun _ => 7⟩⟩ :=
  ⟨c8_noop_alias.1 3 3 _ _ rfl,
   c8_noop_alias.2.1 3 ⟨3, 2, fun _ => 7⟩ none ⟨9, 9, fun _ => 5⟩ rfl,
   (c8_noop_alias.2.2.1 1 ⟨0, ⟨2, 1, fun _ => 5⟩⟩ ⟨1, ⟨2, 1, fun _ => 7⟩⟩ rfl).1⟩

/-- C3: for a Reshape node whose input carries a minibatch layout, Validate
allocates a fresh layout (a new pointer, never the input's pointer), and
OnEvaluateBeginIteration initializes it in place with
`numTimeSteps_out = numTimeSteps_in * rows / newRows` and the
parallel-sequence count unchanged from the input; if the input carries no
layout, the node's layout stays absent. -/
theorem c3_layout_ownership :
    (∀ (freshId : Nat) (inp : MBLayoutPtr) (numRows inputRows : Nat),
        freshId ≠ inp.id →
        ∃ p, reshapeValidateLayout freshId (some inp) none = some p ∧
          p.id ≠ inp.id ∧
          ∃ q, reshapeOnEvaluateBeginIteration numRows inputRows inp.layout
                 (some p) = some q ∧
            q.id ≠ inp.id ∧
            q.layout.numTimeSteps =
              inp.layout.numTimeSteps * inputRows / numRows ∧
            q.layout.numParallelSequences =
              inp.layout.numParallelSequences) ∧
    (∀ freshId : Nat, reshapeValidateLayout freshId none none = none) := by
  constructor
  · intro freshId inp numRows inputRows hne
    exact ⟨⟨freshId, default⟩, rfl, hne,
      ⟨freshId, ⟨inp.layout.numParallelSequences,
        inp.layout.numTimeSteps * inputRows / numRows⟩⟩, rfl, hne, rfl, rfl⟩
  · intro freshId
    rfl

theorem c3_witness :
    ∃ p, reshapeValidateLayout 5 (some ⟨2, ⟨3, 6⟩⟩) none = some p ∧
      p.id ≠ 2 ∧
      ∃ q, reshapeOnEvaluateBeginIteration 4 2 ⟨3, 6⟩ (some p) = some q ∧
        q.id ≠ 2 ∧ q.layout.numTimeSteps = 6 * 2 / 4 ∧
        q.layout.numParallelSequences = 3 :=
  c3_layout_ownership.1 5 ⟨2, ⟨3, 6⟩⟩ 4 2 (by decide)

/-- C7: RowRepeat with `repeatCount ≥ 1` on an input of `inputRows` rows:
validation resizes the output to `inputRows * repeatCount` rows and the
same column count, and the value visible after forward evaluation (through
the node's value accessor, which redirects to the input when
`repeatCount = 1`) has row `i` equal to input row `i mod inputRows` at
every column - whole-matrix copies stacked contiguously. -/
theorem c7_rowrepeat_stacked (numRepeat : Nat) (input own : CMat)
    (h1 : 1 ≤ numRepeat) :
    rowRepeatValidate numRepeat input.rows input.cols =
        (input.rows * numRepeat, input.cols) ∧
    ((rowRepeatFunctionValuesConst numRepeat
        ⟨0, rowRepeatEvalThisNode numRepeat input own⟩ ⟨1, input⟩).mat.rows =
          input.rows * numRepeat ∨ numRepeat = 1) ∧
    ∀ i j, i < input.rows * numRepeat → j < input.cols →
      (rowRepeatFunctionValuesConst numRepeat
          ⟨0, rowRepeatEvalThisNode numRepeat input own⟩ ⟨1, input⟩).mat.entry
          i j = input.entry (i % input.rows) j := by
  refine ⟨rfl, ?_, ?_⟩
  · by_cases h : numRepeat = 1
    · exact Or.inr h
    · left
      unfold rowRepeatFunctionValuesConst rowRepeatEvalThisNode assignRepeatOf
      simp [h]
  · intro i j hi hj
    by_cases h : numRepeat = 1
    · subst h
      unfold rowRepeatFunctionValuesConst rowRepeatEvalThisNode
      simp only [not_true, if_false, if_neg]
      have hrows : i < input.rows := by simpa using hi
      simp [Nat.mod_eq_of_lt hrows]
    · unfold rowRepeatFunctionValuesConst rowRepeatEvalThisNode
      simp only [h, not_false_iff, if_pos]
      exact assignRepeatOf_entry input numRepeat i j hi hj

theorem c7_witness :
    rowRepeatValidate 3 2 1 = (2 * 3, 1) ∧
    ((rowRepeatFunctionValuesConst 3
        ⟨0, rowRepeatEvalThisNode 3 ⟨2, 1, fun n => (n : Int)⟩ ⟨6, 1, fun _ => 0⟩⟩
        ⟨1, ⟨2, 1, fun n => (n : Int)⟩⟩).mat.rows = 2 * 3 ∨ 3 = 1) ∧
    ∀ i j, i < 2 * 3 → j < 1 →
      (rowRepeatFunctionValuesConst 3
          ⟨0, rowRepeatEvalThisNode 3 ⟨2, 1, fun n => (n : Int)⟩
                ⟨6, 1, fun _ => 0⟩⟩
          ⟨1, ⟨2, 1, fun n => (n : Int)⟩⟩).mat.entry i j =
        CMat.entry ⟨2, 1, fun n => (n : Int)⟩ (i % 2) j :=
  c7_rowrepeat_stacked 3 ⟨2, 1, fun n => (n : Int)⟩ ⟨6, 1, fun _ => 0⟩
    (by decide)

/-- C6: every implemented gradient pass accumulates (adds) into the input
gradient and writes only the rows it is responsible for.  RowSlice adds the
output gradient into input-gradient rows `[startIndex, startIndex+numRows)`
and leaves every other input-gradient row unchanged; RowStack (for one
input at start-row offset `off`) adds output-gradient rows
`[off, off + inputRows)` onto the input's gradient; RowRepeat adds the sum
of all `repeatCount` stacked gradient copies of each input row into that
row's slot. -/
theorem c6_gradients_accumulate :
    (∀ (st num : Nat) (g og : CMat) (i j : Nat), i < g.rows →
        (st ≤ i ∧ i < st + num →
          (rowSliceBackprop st num g og).entry i j =
            g.entry i j + og.entry (i - st) j) ∧
        (i < st ∨ st + num ≤ i →
          (rowSliceBackprop st num g og).entry i j = g.entry i j)) ∧
    (∀ (off : Nat) (g og : CMat) (i j : Nat), i < g.rows →
        (rowStackBackprop off g og).entry i j =
          g.entry i j + og.entry (off + i) j) ∧
    (∀ (numRepeat : Nat) (g og : CMat) (i j : Nat), i < g.rows →
        (rowRepeatBackprop numRepeat g og).entry i j =
          g.entry i j +
            (Finset.range numRepeat).sum
              (fun r => og.entry (i + g.rows * r) j)) := by
  refine ⟨?_, ?_, ?_⟩
  · intro st num g og i j hi
    exact ⟨fun h => addToRowSlice_entry_in g og st num i j hi h.1 h.2,
           fun h => addToRowSlice_entry_out g og st num i j hi h⟩
  · intro off g og i j hi
    exact addWithRowSlice_entry g og off g.rows i j hi hi
  · intro numRepeat g og i j hi
    exact addToRowRepeat_entry g og numRepeat i j hi

theorem c6_witness :
    (rowSliceBackprop 1 2 ⟨4, 1, fun _ => 10⟩ ⟨2, 1, fun n => (n : Int)⟩).entry
        2 0 = 10 + 1 ∧
    (rowSliceBackprop 1 2 ⟨4, 1, fun _ => 10⟩ ⟨2, 1, fun n => (n : Int)⟩).entry
        3 0 = 10 ∧
    (rowStackBackprop 2 ⟨3, 1, fun _ => 10⟩ ⟨6, 1, fun n => (n : Int)⟩).entry
        1 0 = 10 + 3 ∧
    (rowRepeatBackprop 3 ⟨2, 1, fun _ => 10⟩ ⟨6, 1, fun n => (n : Int)⟩).entry
        1 0 = 10 + (1 + 3 + 5) := by
  refine ⟨?_, ?_, ?_, ?_⟩
  · have h := ((c6_gradients_accumulate.1 1 2 ⟨4, 1, fun _ => 10⟩
      ⟨2, 1, fun n => (n : Int)⟩ 2 0) (by decide)).1 ⟨by decide, by decide⟩
    rw [h]; decide
  · have h := ((c6_gradients_accumulate.1 1 2 ⟨4, 1, fun _ => 10⟩
      ⟨2, 1, fun n => (n : Int)⟩ 3 0) (by decide)).2 (Or.inr (by decide))
    rw [h]; decide
  · have h := c6_gradients_accumulate.2.1 2 ⟨3, 1, fun _ => 10⟩
      ⟨6, 1, fun n => (n : Int)⟩ 1 0 (by decide)
    rw [h]; decide
  · have h := c6_gradients_accumulate.2.2 3 ⟨2, 1, fun _ => 10⟩
      ⟨6, 1, fun n => (n : Int)⟩ 1 0 (by decide)
    rw [h]; decide

/-! Lemmas about the RowStack offset table and validation loop. -/

theorem partialSumsFrom_ge :
    ∀ (rs : List Nat) (base o : Nat), o ∈ partialSumsFrom base rs → base ≤ o := by
  intro rs
  induction rs with
  | nil => intro base o h; cases h
  | cons r rest ih =>
      intro base o h
      rcases List.mem_cons.mp h with rfl | h
      · exact Nat.le_refl _
      · exact Nat.le_trans (Nat.le_add_right _ _) (ih (base + r) o h)

theorem partialSumsFrom_get :
    ∀ (rs : List Nat) (base i : Nat), i < rs.length →
      (partialSumsFrom base rs).get? i = some (base + (rs.take i).sum) := by
  intro rs
  induction rs with
  | nil => intro base i h; cases h
  | cons r rest ih =>
      intro base i h
      cases i with
      | zero => simp [partialSumsFrom]
      | succ i =>
          have h2 : i < rest.length := by simpa using h
          have hstep : partialSumsFrom base (r :: rest) =
              base :: partialSumsFrom (base + r) rest := rfl
          rw [hstep, List.get?_cons_succ, ih (base + r) i h2]
          simp [Nat.add_assoc]

theorem rowStackValidateAux_nil (isFinal : Bool) (c0 idx tot : Nat) :
    rowStackValidateAux isFinal c0 idx [] tot = .ok ([], tot) := rfl

theorem rowStackValidateAux_cons (isFinal : Bool) (c0 idx r c tot : Nat)
    (rest : List (Nat × Nat)) :
    rowStackValidateAux isFinal c0 idx ((r, c) :: rest) tot =
      if isFinal ∧ c ≠ c0 then .error (.logicErrorInput idx)
      else
        match rowStackValidateAux isFinal c0 (idx + 1) rest (tot + r) with
        | .ok (offs, tot2) => .ok (tot :: offs, tot2)
        | .error e => .error e := rfl

theorem rowStackValidate_cons (isFinal : Bool) (r0 c0 : Nat)
    (rest : List (Nat × Nat)) :
    rowStackValidate isFinal ((r0, c0) :: rest) =
      match rowStackValidateAux isFinal c0 0 ((r0, c0) :: rest) 0 with
      | .ok (offs, tot) => .ok (offs, tot, c0)
      | .error e => .error e := rfl

theorem rowStackValidateAux_ok (isFinal : Bool) (c0 : Nat) :
    ∀ (dims : List (Nat × Nat)) (idx tot : Nat),
      (isFinal = false ∨ ∀ p ∈ dims, p.2 = c0) →
      rowStackValidateAux isFinal c0 idx dims tot =
        .ok (partialSumsFrom tot (dims.map Prod.fst),
             tot + (dims.map Prod.fst).sum) := by
  intro dims
  induction dims with
  | nil => intro idx tot h; simp [rowStackValidateAux_nil, partialSumsFrom]
  | cons p rest ih =>
      intro idx tot h
      obtain ⟨r, c⟩ := p
      have hc : ¬ (isFinal = true ∧ c ≠ c0) := by
        rcases h with h | h
        · simp [h]
        · have := h (r, c) (List.mem_cons_self _ _)
          simp at this
          simp [this]
      have hrest : isFinal = false ∨ ∀ p ∈ rest, p.2 = c0 := by
        rcases h with h | h
        · exact Or.inl h
        · exact Or.inr fun q hq => h q (List.mem_cons_of_mem _ hq)
      rw [rowStackValidateAux_cons, if_neg hc, ih (idx + 1) (tot + r) hrest]
      simp [partialSumsFrom, Nat.add_assoc]

theorem rowStackValidateAux_error_exists (c0 : Nat) :
    ∀ (dims : List (Nat × Nat)) (idx tot : Nat),
      (∃ p ∈ dims, p.2 ≠ c0) →
      ∃ k, rowStackValidateAux true c0 idx dims tot =
        .error (.logicErrorInput k) := by
  intro dims
  induction dims with
  | nil => intro idx tot h; simp at h
  | cons p rest ih =>
      intro idx tot h
      obtain ⟨r, c⟩ := p
      by_cases hc : c = c0
      · have hrest : ∃ p ∈ rest, p.2 ≠ c0 := by
          rcases h with ⟨q, hq, hqc⟩
          rcases List.mem_cons.mp hq with rfl | hq
          · exact absurd hc hqc
          · exact ⟨q, hq, hqc⟩
        obtain ⟨k, hk⟩ := ih (idx + 1) (tot + r) hrest
        exact ⟨k, by rw [rowStackValidateAux_cons, if_neg (by simp [hc]), hk]⟩
      · exact ⟨idx, by rw [rowStackValidateAux_cons, if_pos ⟨rfl, hc⟩]⟩

theorem rowStackValidateAux_error_sound (c0 : Nat) :
    ∀ (dims : List (Nat × Nat)) (idx tot : Nat) (e : Err),
      rowStackValidateAux true c0 idx dims tot = .error e →
      ∃ k, e = .logicErrorInput k ∧ idx ≤ k ∧
        ∃ p, dims.get? (k - idx) = some p ∧ p.2 ≠ c0 := by
  intro dims
  induction dims with
  | nil => intro idx tot e h; rw [rowStackValidateAux_nil] at h; cases h
  | cons p rest ih =>
      intro idx tot e h
      obtain ⟨r, c⟩ := p
      rw [rowStackValidateAux_cons] at h
      by_cases hc : c = c0
      · rw [if_neg (by simp [hc])] at h
        cases hrec : rowStackValidateAux true c0 (idx + 1) rest (tot + r) with
        | ok v =>
            obtain ⟨offs, t⟩ := v
            rw [hrec] at h
            simp at h
        | error e2 =>
            rw [hrec] at h
            simp at h
            subst h
            obtain ⟨k, hk, hik, q, hq, hqc⟩ := ih (idx + 1) (tot + r) e2 hrec
            refine ⟨k, hk, by omega, q, ?_, hqc⟩
            have hk2 : k - idx = (k - (idx + 1)) + 1 := by omega
            rw [hk2, List.get?_cons_succ]
            exact hq
      · rw [if_pos ⟨rfl, hc⟩] at h
        injection h with h2
        subst h2
        refine ⟨idx, rfl, Nat.le_refl _, (r, c), ?_, hc⟩
        rw [Nat.sub_self]
        rfl

/-- C4: validation-pass discipline.  With `isFinalValidationPass` false no
configuration or shape check raises: Reshape (with a positive requested row
count), RowSlice and RowStack all succeed on every input.  Each check
raises its own error exactly when the pass is final and its condition is
violated: Reshape raises InvalidArgument iff `newRows` is neither an
integer multiple nor an integer divisor of `rows`; RowSlice raises its
range error iff `startIndex + numRows` exceeds the input row count;
RowStack raises a LogicError naming an input iff some input's column count
differs from input 0's, and any input it names does mismatch. -/
theorem c4_validation_pass_discipline :
    (∀ (numRows rows cols : Nat) (inputHasLayout : Bool), 0 < numRows →
        reshapeValidate false numRows rows cols inputHasLayout =
          .ok (numRows, cols * rows / numRows)) ∧
    (∀ (isFinal : Bool) (numRows rows cols : Nat) (hl : Bool),
        0 < numRows → 0 < rows →
        (reshapeValidate isFinal numRows rows cols hl =
            .error .invalidArgument ↔
          isFinal = true ∧
            ((rows < numRows ∧ ¬ rows ∣ numRows) ∨
             (numRows < rows ∧ ¬ numRows ∣ rows)))) ∧
    (∀ startIndex numRows inputRows inputCols : Nat,
        rowSliceValidate false startIndex numRows inputRows inputCols =
          .ok (numRows, inputCols)) ∧
    (∀ (isFinal : Bool) (startIndex numRows inputRows inputCols : Nat),
        rowSliceValidate isFinal startIndex numRows inputRows inputCols =
            .error .runtimeError ↔
          isFinal = true ∧ inputRows < startIndex + numRows) ∧
    (∀ (r0 c0 : Nat) (rest : List (Nat × Nat)),
        ∃ out, rowStackValidate false ((r0, c0) :: rest) = .ok out) ∧
    (∀ (isFinal : Bool) (r0 c0 : Nat) (rest : List (Nat × Nat)),
        ((∃ i, rowStackValidate isFinal ((r0, c0) :: rest) =
            .error (.logicErrorInput i)) ↔
          isFinal = true ∧ ∃ p ∈ rest, p.2 ≠ c0) ∧
        (∀ i, rowStackValidate isFinal ((r0, c0) :: rest) =
            .error (.logicErrorInput i) →
          ∃ p, ((r0, c0) :: rest).get? i = some p ∧ p.2 ≠ c0)) := by
  have hconv : ∀ numRows rows : Nat, 0 < numRows → 0 < rows →
      (((numRows > rows ∧ numRows % rows ≠ 0) ∨
        (numRows < rows ∧ rows % numRows ≠ 0)) ↔
       ((rows < numRows ∧ ¬ rows ∣ numRows) ∨
        (numRows < rows ∧ ¬ numRows ∣ rows))) := by
    intro numRows rows h1 h2
    simp [gt_iff_lt, Nat.dvd_iff_mod_eq_zero]
  refine ⟨?_, ?_, ?_, ?_, ?_, ?_⟩
  · intro numRows rows cols hl h0
    unfold reshapeValidate
    have : ¬ (numRows = 0) := by omega
    simp [this]
  · intro isFinal numRows rows cols hl h0 hr
    unfold reshapeValidate
    have hnz : ¬ (numRows = 0) := by omega
    rw [if_neg hnz]
    cases isFinal with
    | false =>
        simp
    | true =>
        rw [if_pos rfl, if_neg (by omega : ¬ (numRows > rows ∧ rows = 0))]
        by_cases hv : (numRows > rows ∧ numRows % rows ≠ 0) ∨
            (numRows < rows ∧ rows % numRows ≠ 0)
        · rw [if_pos hv]
          exact iff_of_true rfl ⟨rfl, (hconv numRows rows h0 hr).mp hv⟩
        · rw [if_neg hv]
          refine iff_of_false ?_ ?_
          · by_cases hc : ¬ (hl = true) ∧
                ((if rows * cols ≠ numRows then (1 : Nat) else 0) ≠
                  cols * rows / numRows)
            · rw [if_pos hc]; simp
            · rw [if_neg hc]; simp
          · intro h
            exact hv ((hconv numRows rows h0 hr).mpr h.2)
  · intro startIndex numRows inputRows inputCols
    unfold rowSliceValidate
    simp
  · intro isFinal startIndex numRows inputRows inputCols
    unfold rowSliceValidate
    by_cases h : isFinal = true ∧ inputRows < startIndex + numRows
    · rw [if_pos h]
      exact iff_of_true rfl h
    · rw [if_neg h]
      exact iff_of_false (by simp) h
  · intro r0 c0 rest
    exact ⟨(partialSumsFrom 0 (((r0, c0) :: rest).map Prod.fst),
            0 + (((r0, c0) :: rest).map Prod.fst).sum, c0), by
      rw [rowStackValidate_cons,
        rowStackValidateAux_ok false c0 ((r0, c0) :: rest) 0 0 (Or.inl rfl)]⟩
  · intro isFinal r0 c0 rest
    have hnonfinal : rowStackValidate false ((r0, c0) :: rest) =
        .ok (partialSumsFrom 0 (((r0, c0) :: rest).map Prod.fst),
             0 + (((r0, c0) :: rest).map Prod.fst).sum, c0) := by
      rw [rowStackValidate_cons,
        rowStackValidateAux_ok false c0 ((r0, c0) :: rest) 0 0 (Or.inl rfl)]
    have hsound : ∀ i, rowStackValidate isFinal ((r0, c0) :: rest) =
        .error (.logicErrorInput i) →
        ∃ p, ((r0, c0) :: rest).get? i = some p ∧ p.2 ≠ c0 := by
      intro i hi
      cases isFinal with
      | false => rw [hnonfinal] at hi; cases hi
      | true =>
          rw [rowStackValidate_cons] at hi
          cases haux : rowStackValidateAux true c0 0 ((r0, c0) :: rest) 0 with
          | ok v =>
              obtain ⟨offs, tot⟩ := v
              rw [haux] at hi
              simp at hi
          | error e =>
              rw [haux] at hi
              simp at hi
              subst hi
              obtain ⟨k, hk, -, p, hp, hpc⟩ :=
                rowStackValidateAux_error_sound c0 ((r0, c0) :: rest) 0 0 _ haux
              injection hk with hk
              subst hk
              rw [Nat.sub_zero] at hp
              exact ⟨p, hp, hpc⟩
    refine ⟨⟨?_, ?_⟩, hsound⟩
    · rintro ⟨i, hi⟩
      cases isFinal with
      | false => rw [hnonfinal] at hi; cases hi
      | true =>
          refine ⟨rfl, ?_⟩
          obtain ⟨p, hp, hpc⟩ := hsound i hi
          cases i with
          | zero =>
              rw [List.get?_cons_zero] at hp
              injection hp with hp
              subst hp
              exact absurd rfl hpc
          | succ i =>
              rw [List.get?_cons_succ] at hp
              exact ⟨p, List.get?_mem hp, hpc⟩
    · rintro ⟨hfin, p, hp, hpc⟩
      subst hfin
      obtain ⟨k, hk⟩ := rowStackValidateAux_error_exists c0 ((r0, c0) :: rest)
        0 0 ⟨p, List.mem_cons_of_mem _ hp, hpc⟩
      exact ⟨k, by rw [rowStackValidate_cons, hk]⟩

theorem c4_witness :
    reshapeValidate false 4 2 3 false = .ok (4, 3 * 2 / 4) ∧
    (reshapeValidate true 4 3 5 false = .error .invalidArgument ↔
      true = true ∧ ((3 < 4 ∧ ¬ (3 ∣ 4)) ∨ (4 < 3 ∧ ¬ (4 ∣ 3)))) ∧
    rowSliceValidate false 2 5 4 7 = .ok (5, 7) ∧
    (rowSliceValidate true 2 5 4 7 = .error .runtimeError ↔
      true = true ∧ 4 < 2 + 5) ∧
    (∃ out, rowStackValidate false ((2, 3) :: [(4, 9)]) = .ok out) ∧
    ((∃ i, rowStackValidate true ((2, 3) :: [(4, 9)]) =
        .error (.logicErrorInput i)) ↔
      true = true ∧ ∃ p ∈ [((4 : Nat), (9 : Nat))], p.2 ≠ 3) :=
  ⟨c4_validation_pass_discipline.1 4 2 3 false (by decide),
   c4_validation_pass_discipline.2.1 true 4 3 5 false (by decide) (by decide),
   c4_validation_pass_discipline.2.2.1 2 5 4 7,
   c4_validation_pass_discipline.2.2.2.1 true 2 5 4 7,
   c4_validation_pass_discipline.2.2.2.2.1 2 3 [(4, 9)],
   (c4_validation_pass_discipline.2.2.2.2.2 true 2 3 [(4, 9)]).1⟩

/-! Lemmas about the RowStack evaluation loop. -/

theorem rowStackEvalFrom_nil (acc : CMat) : rowStackEvalFrom [] acc = acc := rfl

theorem rowStackEvalFrom_cons (inp : CMat) (off : Nat)
    (rest : List (CMat × Nat)) (acc : CMat) :
    rowStackEvalFrom ((inp, off) :: rest) acc =
      rowStackEvalFrom rest (assignToRowSliceValuesOf acc inp off inp.rows) :=
  rfl

theorem partialSumsFrom_cons (base r : Nat) (rs : List Nat) :
    partialSumsFrom base (r :: rs) = base :: partialSumsFrom (base + r) rs :=
  rfl

theorem rowStackEvalFrom_rows :
    ∀ (pairs : List (CMat × Nat)) (acc : CMat),
      (rowStackEvalFrom pairs acc).rows = acc.rows := by
  intro pairs
  induction pairs with
  | nil => intro acc; rfl
  | cons q rest ih =>
      intro acc
      obtain ⟨inp, off⟩ := q
      rw [rowStackEvalFrom_cons, ih]
      rfl

theorem rowStackEvalFrom_preserve :
    ∀ (pairs : List (CMat × Nat)) (acc : CMat) (bound : Nat),
      (∀ q ∈ pairs, bound ≤ q.2) →
      ∀ i j, i < bound → i < acc.rows →
        (rowStackEvalFrom pairs acc).entry i j = acc.entry i j := by
  intro pairs
  induction pairs with
  | nil => intro acc bound h i j hi hacc; rfl
  | cons q rest ih =>
      intro acc bound h i j hi hacc
      obtain ⟨inp, off⟩ := q
      have hoff : bound ≤ off := h (inp, off) (List.mem_cons_self _ _)
      have hrest : ∀ q ∈ rest, bound ≤ q.2 :=
        fun q hq => h q (List.mem_cons_of_mem _ hq)
      rw [rowStackEvalFrom_cons,
        ih (assignToRowSliceValuesOf acc inp off inp.rows) bound hrest i j hi
          (by rw [assignToRowSlice_rows]; exact hacc)]
      exact assignToRowSlice_entry_out acc inp off inp.rows i j hacc
        (Or.inl (by omega))

theorem rowStackEvalFrom_correct :
    ∀ (mats : List CMat) (base : Nat) (acc : CMat),
      base + (mats.map CMat.rows).sum ≤ acc.rows →
      ∀ (idx : Nat) (m : CMat) (a j : Nat),
        mats.get? idx = some m → a < m.rows →
        (rowStackEvalFrom
            (mats.zip (partialSumsFrom base (mats.map CMat.rows))) acc).entry
          (base + ((mats.take idx).map CMat.rows).sum + a) j = m.entry a j := by
  intro mats
  induction mats with
  | nil =>
      intro base acc hle idx m a j hget ha
      simp at hget
  | cons m0 rest ih =>
      intro base acc hle idx m a j hget ha
      have hle2 : base + (m0.rows + (rest.map CMat.rows).sum) ≤ acc.rows := by
        simpa using hle
      rw [List.map_cons, partialSumsFrom_cons, List.zip_cons_cons,
        rowStackEvalFrom_cons]
      have hrows2 : (assignToRowSliceValuesOf acc m0 base m0.rows).rows =
          acc.rows := assignToRowSlice_rows acc m0 base m0.rows
      cases idx with
      | zero =>
          injection hget with hget
          subst hget
          have hidx : base + (((m0 :: rest).take 0).map CMat.rows).sum + a =
              base + a := by simp
          rw [hidx]
          have hb : ∀ q ∈ rest.zip
              (partialSumsFrom (base + m0.rows) (rest.map CMat.rows)),
              base + m0.rows ≤ q.2 := by
            intro q hq
            exact partialSumsFrom_ge _ _ _ (List.of_mem_zip hq).2
          rw [rowStackEvalFrom_preserve _ _ (base + m0.rows) hb (base + a) j
            (by omega) (by rw [hrows2]; omega)]
          rw [assignToRowSlice_entry_in acc m0 base m0.rows (base + a) j
            (by omega) (by omega) (by omega)]
          congr 1
          omega
      | succ idx =>
          rw [List.get?_cons_succ] at hget
          have hidx : base + (((m0 :: rest).take (idx + 1)).map CMat.rows).sum
              + a = (base + m0.rows) + ((rest.take idx).map CMat.rows).sum
              + a := by
            simp [Nat.add_assoc]
          rw [hidx]
          exact ih (base + m0.rows) (assignToRowSliceValuesOf acc m0 base
            m0.rows) (by rw [hrows2]; omega) idx m a j hget ha

/-- C5: for a RowStack node over inputs `m0 :: mrest` sharing one column
count, every Validate call (final or not) recomputes the start-row table as
the running sum of the inputs' row counts in input order and resizes the
output to the row total; forward evaluation then writes input `idx`'s rows
into output rows `[offset_idx, offset_idx + rows_idx)`: output entry
`(offset_idx + a, j)` equals input `idx`'s entry `(a, j)`. -/
theorem c5_rowstack_offsets_eval (isFinal : Bool) (m0 : CMat)
    (mrest : List CMat) (own : CMat)
    (hcols : ∀ m ∈ m0 :: mrest, m.cols = m0.cols)
    (hrows : own.rows = ((m0 :: mrest).map CMat.rows).sum) :
    rowStackValidate isFinal ((m0 :: mrest).map fun m => (m.rows, m.cols)) =
      .ok (partialSumsFrom 0 ((m0 :: mrest).map CMat.rows),
           0 + ((m0 :: mrest).map CMat.rows).sum, m0.cols) ∧
    (∀ i, i < (m0 :: mrest).length →
      (partialSumsFrom 0 ((m0 :: mrest).map CMat.rows)).get? i =
        some ((((m0 :: mrest).take i).map CMat.rows).sum)) ∧
    (∀ (idx : Nat) (m : CMat) (a j : Nat),
      (m0 :: mrest).get? idx = some m → a < m.rows →
      (rowStackEvalThisNode (m0 :: mrest)
          (partialSumsFrom 0 ((m0 :: mrest).map CMat.rows)) own).entry
        ((((m0 :: mrest).take idx).map CMat.rows).sum + a) j =
          m.entry a j) := by
  have hfst : (((m0 :: mrest).map fun m => (m.rows, m.cols)).map Prod.fst) =
      (m0 :: mrest).map CMat.rows := by
    simp [List.map_map]
  refine ⟨?_, ?_, ?_⟩
  · have hclause : ∀ p ∈ ((m0 :: mrest).map fun m => (m.rows, m.cols)),
        p.2 = m0.cols := by
      intro p hp
      obtain ⟨m, hm, rfl⟩ := List.mem_map.mp hp
      exact hcols m hm
    have hmapc : ((m0 :: mrest).map fun m => (m.rows, m.cols)) =
        (m0.rows, m0.cols) :: (mrest.map fun m => (m.rows, m.cols)) := rfl
    rw [hmapc] at hclause ⊢
    rw [rowStackValidate_cons,
      rowStackValidateAux_ok isFinal m0.cols _ 0 0 (Or.inr hclause)]
    rw [← hmapc, hfst]
  · intro i hi
    rw [partialSumsFrom_get ((m0 :: mrest).map CMat.rows) 0 i
      (by simpa using hi)]
    simp [List.map_take]
  · intro idx m a j hget ha
    have h := rowStackEvalFrom_correct (m0 :: mrest) 0 own
      (by rw [hrows]; omega) idx m a j hget ha
    simpa using h

theorem c5_witness :
    partialSumsFrom 0 [2, 3, 1] = [0, 2, 5] ∧
    rowStackValidate true [(2, 1), (3, 1), (1, 1)] = .ok ([0, 2, 5], 6, 1) ∧
    (rowStackEvalThisNode
        [⟨2, 1, fun n => (n : Int)⟩, ⟨3, 1, fun n => (10 : Int) + n⟩,
         ⟨1, 1, fun _ => (100 : Int)⟩] [0, 2, 5]
        ⟨6, 1, fun _ => 0⟩).entry 3 0 =
      CMat.entry ⟨3, 1, fun n => (10 : Int) + n⟩ 1 0 := by
  have h := c5_rowstack_offsets_eval true ⟨2, 1, fun n => (n : Int)⟩
    [⟨3, 1, fun n => (10 : Int) + n⟩, ⟨1, 1, fun _ => (100 : Int)⟩]
    ⟨6, 1, fun _ => 0⟩ (by simp) (by decide)
  exact ⟨by decide, h.1,
    h.2.2 1 ⟨3, 1, fun n => (10 : Int) + n⟩ 1 0 rfl (by decide)⟩

/-- C2 counterexample: `rows = 1, cols = 1, newRows = 2` is valid in the
claim's sense (`newRows % rows == 0`, `newRows ≠ rows`), yet the no-layout
forward evaluation produces a `2 × 0` output (`newCols = 1 * 1 / 2 = 0`):
the element count is not preserved and the buffer content read as one long
vector is empty, not the input's, so the round trip cannot recover it. -/
theorem c2_counterexample :
    ((1 : Nat) % 2 = 0 ∨ (2 : Nat) % 1 = 0) ∧ (2 : Nat) ≠ 1 ∧
    ∃ out, reshapeEvalThisNode 2 ⟨1, 1, fun _ => 1⟩ none ⟨2, 0, fun _ => 0⟩ =
        .ok out ∧
      out.rows * out.cols ≠ 1 * 1 ∧
      out.asVector ≠ CMat.asVector ⟨1, 1, fun _ => (1 : Int)⟩ := by
  refine ⟨by decide, by decide, ⟨2, 0, fun _ => 1⟩, rfl, by decide, by decide⟩

/-- C2 (amended): for every input of `rows × cols` (`rows, newRows > 0`)
with no minibatch layout and every valid `newRows` (`rows % newRows == 0`
or `newRows % rows == 0`, `newRows ≠ rows`) that moreover divides
`rows * cols` (so the element count can be preserved - the claim as stated
fails otherwise, see the counterexample), forward evaluation yields a
`newRows × newCols` output with `newRows * newCols = rows * cols` whose
elements read as one long vector equal the input's, and a second Reshape
back to `rows` recovers dimensions and buffer content exactly. -/
theorem c2_reshape_roundtrip (numRows : Nat) (input own own2 : CMat)
    (hr : 0 < input.rows) (hn : 0 < numRows)
    (hvalid : input.rows % numRows = 0 ∨ numRows % input.rows = 0)
    (hne : numRows ≠ input.rows)
    (hdvd : numRows ∣ input.rows * input.cols)
    (hown : own.rows = numRows)
    (hownc : own.cols = input.cols * input.rows / numRows)
    (hown2 : own2.rows = input.rows)
    (hown2c : own2.cols = input.cols) :
    ∃ out, reshapeEvalThisNode numRows input none own = .ok out ∧
      out.rows = numRows ∧
      out.cols = input.cols * input.rows / numRows ∧
      numRows * (input.cols * input.rows / numRows) =
        input.rows * input.cols ∧
      out.asVector = input.asVector ∧
      ∃ out2, reshapeEvalThisNode input.rows out none own2 = .ok out2 ∧
        out2.rows = input.rows ∧ out2.cols = input.cols ∧
        out2.asVector = input.asVector := by
  have hdvd2 : numRows ∣ input.cols * input.rows := by
    rw [Nat.mul_comm]
    exact hdvd
  have hkey : numRows * (input.cols * input.rows / numRows) =
      input.cols * input.rows := Nat.mul_div_cancel' hdvd2
  have hkey2 : numRows * (input.cols * input.rows / numRows) =
      input.rows * input.cols := by rw [hkey]; ring
  have hnc2 : (input.cols * input.rows / numRows) * numRows / input.rows =
      input.cols := by
    rw [Nat.div_mul_cancel hdvd2, Nat.mul_div_cancel _ hr]
  have heval1 : reshapeEvalThisNode numRows input none own =
      .ok ⟨numRows, input.cols * input.rows / numRows, input.data⟩ := by
    unfold reshapeEvalThisNode
    have h2 : ¬ (numRows = 0) := by omega
    simp [hne, h2, hown, hownc]
  have heval2 : reshapeEvalThisNode input.rows
      ⟨numRows, input.cols * input.rows / numRows, input.data⟩ none own2 =
      .ok ⟨input.rows, input.cols, input.data⟩ := by
    unfold reshapeEvalThisNode
    have hA : ¬ (input.rows = numRows) := fun h => hne h.symm
    have hB : ¬ (input.rows = 0) := by omega
    simp [hA, hB, hown2, hown2c, hnc2]
  have hvec1 : CMat.asVector ⟨numRows, input.cols * input.rows / numRows,
      input.data⟩ = input.asVector := by
    show (List.range (numRows * (input.cols * input.rows / numRows))).map
        input.data = (List.range (input.rows * input.cols)).map input.data
    rw [hkey2]
  have hvec2 : CMat.asVector ⟨input.rows, input.cols, input.data⟩ =
      input.asVector := rfl
  exact ⟨⟨numRows, input.cols * input.rows / numRows, input.data⟩, heval1,
    rfl, rfl, hkey2, hvec1,
    ⟨input.rows, input.cols, input.data⟩, heval2, rfl, rfl, hvec2⟩

theorem c2_witness :
    ∃ out, reshapeEvalThisNode 3 ⟨6, 2, fun n => (n : Int)⟩ none
        ⟨3, 4, fun _ => 0⟩ = .ok out ∧
      out.rows = 3 ∧ out.cols = 2 * 6 / 3 ∧
      3 * (2 * 6 / 3) = 6 * 2 ∧
      out.asVector = CMat.asVector ⟨6, 2, fun n => (n : Int)⟩ ∧
      ∃ out2, reshapeEvalThisNode 6 out none ⟨6, 2, fun _ => 0⟩ = .ok out2 ∧
        out2.rows = 6 ∧ out2.cols = 2 ∧
        out2.asVector = CMat.asVector ⟨6, 2, fun n => (n : Int)⟩ :=
  c2_reshape_roundtrip 3 ⟨6, 2, fun n => (n : Int)⟩ ⟨3, 4, fun _ => 0⟩
    ⟨6, 2, fun _ => 0⟩ (by decide) (by decide) (Or.inl (by decide))
    (by decide) (by decide) rfl rfl rfl rfl

/-! Index bookkeeping for the stack shuffle. -/

theorem tensorShuffle_entry (keep scale : Int) (a b : Nat → Int)
    (D S K T : Nat) (d k s t : Nat) (hd : d < D) (hk : k < K) (hs : s < S) :
    tensorShuffleScaleAndAdd keep a D S 1 K T scale b
        (d + D * (k + K * (s + S * t))) =
      keep * b (d + D * (k + K * (s + S * t))) +
        scale * a (d + D * (s + S * (k + K * t))) := by
  have h1 : (d + D * (k + K * (s + S * t))) % D = d := add_mul_mod_lt _ _ _ hd
  have h2 : (d + D * (k + K * (s + S * t))) / D = k + K * (s + S * t) :=
    add_mul_div_lt _ _ _ hd
  have h3 : (k + K * (s + S * t)) % K = k := add_mul_mod_lt _ _ _ hk
  have h4 : (d + D * (k + K * (s + S * t))) / (D * K) = s + S * t := by
    rw [← Nat.div_div_eq_div_mul, h2]
    exact add_mul_div_lt _ _ _ hk
  have h5 : (s + S * t) % S = s := add_mul_mod_lt _ _ _ hs
  have h6 : (d + D * (k + K * (s + S * t))) / (D * K * S) = t := by
    rw [← Nat.div_div_eq_div_mul, h4]
    exact add_mul_div_lt _ _ _ hs
  simp only [tensorShuffleScaleAndAdd, Nat.mul_one, Nat.mod_one]
  rw [h1, h2, h3, h4, h5, h6]
  simp

/-- C1: the stack direction of Reshape forward evaluation
(`newRows = K * rows`, `K ≥ 2`, input carrying a layout of `S` parallel
sequences over `K * T` time steps, node layout `(S, T)`) is the pure index
permutation from the `(D, S, M, K, T)` input view to the `(D, K, M, S, T)`
output view: output column `s + S * t` (output step `t` of sequence `s`)
carries, as its `k`-th feature block, input column `s + S * (k + K * t)`
(the `k`-th of the `K` consecutive input steps of the same sequence), with
blocks ordered `0 .. K-1` top to bottom and every element value copied
unchanged. -/
theorem c1_stack_is_time_grouping_permutation
    (rows K S T : Nat) (input own : CMat) (lay : MBLayout)
    (hr : 0 < rows) (hK : 2 ≤ K)
    (hin_rows : input.rows = rows)
    (hin_cols : input.cols = S * (K * T))
    (hlay : lay = ⟨S, T⟩)
    (hown_rows : own.rows = K * rows) (hown_cols : own.cols = S * T) :
    ∀ d k s t, d < rows → k < K → s < S → t < T →
      exceptEntry (reshapeEvalThisNode (K * rows) input (some lay) own)
          (d + rows * k) (s + S * t) =
        some (input.entry d (s + S * (k + K * t))) := by
  intro d k s t hd hk hs ht
  subst hlay
  have hne : ¬ (K * rows = input.rows) := by
    rw [hin_rows]
    intro h
    have hone : K = 1 :=
      Nat.eq_of_mul_eq_mul_right hr (h.trans (Nat.one_mul rows).symm)
    omega
  have hn0 : ¬ (K * rows = 0) := by
    have := Nat.mul_pos (show 0 < K by omega) hr
    omega
  have hlt : input.rows < K * rows := by
    rw [hin_rows]
    nlinarith
  have hnewCols : input.cols * input.rows / (K * rows) = S * T := by
    rw [hin_cols, hin_rows]
    have hre : S * (K * T) * rows = (S * T) * (K * rows) := by ring
    rw [hre, Nat.mul_div_cancel _ (Nat.mul_pos (show 0 < K by omega) hr)]
  have hfactor : K * rows / input.rows = K := by
    rw [hin_rows]
    exact Nat.mul_div_cancel _ hr
  have heval : reshapeEvalThisNode (K * rows) input (some ⟨S, T⟩) own =
      .ok (Stack input own S T K false) := by
    unfold reshapeEvalThisNode
    have hz : ¬ (input.rows = 0) := by omega
    simp [hne, hn0, hown_rows, hown_cols, hnewCols, hlt, hz, hfactor]
  rw [heval]
  show some (CMat.entry (Stack input own S T K false) (d + rows * k)
      (s + S * t)) = some (input.entry d (s + S * (k + K * t)))
  have hd2 : d < input.rows := by omega
  have hidx : (d + rows * k) + own.rows * (s + S * t) =
      d + input.rows * (k + K * (s + S * t)) := by
    rw [hown_rows, hin_rows]
    ring
  simp only [Stack, CMat.reshaped, CMat.entry]
  rw [hidx, tensorShuffle_entry _ _ input.data own.data input.rows S K T
    d k s t hd2 hk hs]
  simp [CMat.entry]

theorem c1_witness :
    exceptEntry (reshapeEvalThisNode 6 ⟨2, 12, fun n => (n : Int)⟩
        (some ⟨2, 2⟩) ⟨6, 4, fun _ => 0⟩) 5 2 =
      some (CMat.entry ⟨2, 12, fun n => (n : Int)⟩ 1 10) :=
  c1_stack_is_time_grouping_permutation 2 3 2 2 ⟨2, 12, fun n => (n : Int)⟩
    ⟨6, 4, fun _ => 0⟩ ⟨2, 2⟩ (by decide) (by decide) rfl rfl rfl rfl rfl
    1 2 0 1 (by decide) (by decide) (by decide) (by decide)

end CNTK
